import Mathlib

/-
Verification of the propositional-logic core of the Pitsweeper repository
(zleodai/AIHomework01): `maze_clause.py`, `maze_knowledge_base.py` and the
deduction/move-selection parts of `maze_agent.py`.

Modelling conventions:
* A Python `MazeClause` stores `props : dict[(str, (int,int)) -> bool]` and a
  `valid : bool` flag.  A `dict` maps each key to exactly one value, so here a
  clause is a `Finset` of signed propositions together with the flag; the
  "each proposition has at most one polarity" fact that the `dict`
  representation enforces for free is the separate predicate `FunctionalProps`,
  assumed where a theorem needs it (every clause the Python program builds
  satisfies it).
* Python `set`s of clauses deduplicate by `__hash__`-then-`__eq__`; the hash is
  over `(frozenset(props.items()), valid)`, so two clauses collide exactly when
  they have the same signed propositions and flag (barring astronomically
  unlikely integer-hash collisions, which we do not model).  Sets of clauses
  are therefore `Finset MazeClause` with structural equality.
* Where Python iterates over a `set` in unspecified order
  (`get_simplified_clauses`, the two loops of `get_best_tile`) the embedding
  takes the iteration order as an explicit `List` argument.
* The `while True` loop of `ask` is embedded with explicit fuel
  (`askFuel`), which is proved sufficient below (`askLoop_false_not_derives`
  shows the fuel-exhaustion branch is unreachable from the initial state).
-/

/-- A grid location `(column, row)`. -/
abbrev Loc : Type := Int × Int

/-- A maze proposition, e.g. `("P", (1, 1))`: a predicate symbol applied to a
location. -/
abbrev MazePropId : Type := String × Loc

/-- `maze_clause.py`: a clause is a mapping from propositions to polarities
plus the `valid` (tautology) flag.  See the modelling notes at the top of the
file for why the dict is a `Finset` of signed propositions. -/
structure MazeClause where
  props : Finset (MazePropId × Bool)
  valid : Bool
deriving DecidableEq

/-- The props of a clause form a functional mapping (at most one polarity per
proposition).  Every clause built by the Python code satisfies this because
`props` is a `dict` there. -/
def FunctionalProps (c : MazeClause) : Prop :=
  ∀ pb ∈ c.props, (pb.1, !pb.2) ∉ c.props

instance (c : MazeClause) : Decidable (FunctionalProps c) := by
  unfold FunctionalProps; infer_instance

/-- Intermediate state of the `MazeClause.__init__` loop: the association list
built so far (the `self.props` dict, in insertion order), the `validProps` set,
and the `self.valid` flag. -/
abbrev CState : Type := List (MazePropId × Bool) × Finset MazePropId × Bool

/-- One iteration of the `for proposition in props` loop of
`MazeClause.__init__`: if the proposition is already a key of the dict and its
stored polarity differs, record it in `validProps` and set `valid`; otherwise
insert it if absent. -/
def clauseStep (st : CState) (pb : MazePropId × Bool) : CState :=
  match st.1.find? (fun q => decide (q.1 = pb.1)) with
  | some qb => if qb.2 = pb.2 then st else (st.1, insert pb.1 st.2.1, true)
  | none => (st.1 ++ [pb], st.2.1, st.2.2)

/-- `MazeClause.__init__`: run the loop over the input propositions, then pop
every `validProps` key from the dict. -/
def mkMazeClause (input : List (MazePropId × Bool)) : MazeClause :=
  let st := input.foldl clauseStep ([], (∅ : Finset MazePropId), false)
  ⟨(st.1.filter (fun pb => decide (pb.1 ∉ st.2.1))).toFinset, st.2.2⟩

/-- `MazeClause.get_prop`: the polarity of `p` in the clause, if present.  On
functional props this is exactly the Python dict lookup. -/
def MazeClause.getProp (c : MazeClause) (p : MazePropId) : Option Bool :=
  if (p, true) ∈ c.props then some true
  else if (p, false) ∈ c.props then some false
  else none

/-- `MazeClause.is_valid`. -/
def MazeClause.is_valid (c : MazeClause) : Bool := c.valid

/-- `MazeClause.is_empty`: not valid and with zero propositions. -/
def MazeClause.is_empty (c : MazeClause) : Bool := !c.valid && decide (c.props = ∅)

/-- `MazeClause.__len__`: the number of propositions. -/
def MazeClause.size (c : MazeClause) : Nat := c.props.card

/-- The key set of a props mapping (Python `frozenset(self.props)`, which
iterates a dict's KEYS). -/
def clauseKeys (s : Finset (MazePropId × Bool)) : Finset MazePropId :=
  s.image Prod.fst

/-- `MazeClause.__eq__`: `frozenset(self.props) == frozenset(other.props) and
self.valid == other.valid`.  Note `frozenset(dict)` is the set of KEYS, so
this compares key sets, not the polarity mapping. -/
def clauseEqPy (c1 c2 : MazeClause) : Bool :=
  decide (clauseKeys c1.props = clauseKeys c2.props) && decide (c1.valid = c2.valid)

/-- The argument fed to `hash` in `MazeClause.__hash__`:
`(frozenset(self.props.items()), self.valid)`.  Python guarantees equal
arguments hash equally; distinct arguments hash differently with overwhelming
probability (we model the hash input, not the integer hash itself). -/
def clauseHashKey (c : MazeClause) : Finset (MazePropId × Bool) × Bool :=
  (c.props, c.valid)

/-- The set of propositions shared by `c1` and `c2` with opposite polarity:
the `resolutionPropositions` collected by the loop of `MazeClause.resolve`. -/
def resolutionProps (c1 c2 : MazeClause) : Finset MazePropId :=
  (c1.props.filter (fun pb => (pb.1, !pb.2) ∈ c2.props)).image Prod.fst

/-- The `propositionGraveyard` dict after the loop of `MazeClause.resolve`:
`c1`'s props plus those props of `c2` whose key is not already a key of
`c1`. -/
def graveyard (c1 c2 : MazeClause) : Finset (MazePropId × Bool) :=
  c1.props ∪ c2.props.filter (fun pb => pb.1 ∉ clauseKeys c1.props)

/-- `MazeClause.resolve`: if exactly one complementary proposition exists, the
lone output clause is the graveyard minus that proposition; otherwise the
result set is empty.  (The source passes the popped graveyard dict's items to
the `MazeClause` constructor; a dict maps each key to one polarity, so the
constructor stores exactly those items with `valid = False`.) -/
def MazeClause.resolve (c1 c2 : MazeClause) : Finset MazeClause :=
  if (resolutionProps c1 c2).card = 1 then
    {⟨(graveyard c1 c2).filter (fun pb => pb.1 ∉ resolutionProps c1 c2), false⟩}
  else ∅

/-- `MazeClause([])`: the empty clause. -/
def emptyClause : MazeClause := mkMazeClause []

/-- `maze_knowledge_base.py`: the knowledge base is a set of clauses. -/
structure MazeKnowledgeBase where
  clauses : Finset MazeClause
deriving DecidableEq

/-- `MazeKnowledgeBase.tell`: add the clause to the set. -/
def MazeKnowledgeBase.tell (kb : MazeKnowledgeBase) (c : MazeClause) :
    MazeKnowledgeBase :=
  ⟨insert c kb.clauses⟩

/-- The clause `ask` adds to its working set: every proposition of the query
with its polarity flipped, passed to the `MazeClause` constructor.  The
flipped items of a dict have pairwise distinct keys, so the constructor
stores exactly them with `valid = False`. -/
def negQuery (q : MazeClause) : MazeClause :=
  ⟨q.props.image (fun pb => (pb.1, !pb.2)), false⟩

/-- One full pass of `for c1, c2 in itertools.combinations(clauses, 2)`: all
resolvents of distinct pairs.  (`resolve` is symmetric on functional clauses,
so taking both orders of each unordered pair matches the source.) -/
def passResolvents (s : Finset MazeClause) : Finset MazeClause :=
  (s.product s).biUnion
    (fun cc => if cc.1 = cc.2 then ∅ else MazeClause.resolve cc.1 cc.2)

/-- The `while True` loop of `MazeKnowledgeBase.ask`, with fuel.  Per pass:
return `True` as soon as the empty clause is among the pass's resolvents;
accumulate resolvents into `newSet`; at a fixpoint (`new.issubset(clauses)`)
return `False`; otherwise union `newSet` into the working set and repeat. -/
def askLoop : Nat → Finset MazeClause → Finset MazeClause → Bool
  | 0, _, _ => false
  | n + 1, clauses, newSet =>
    if emptyClause ∈ passResolvents clauses then true
    else if newSet ∪ passResolvents clauses ⊆ clauses then false
    else askLoop n (clauses ∪ (newSet ∪ passResolvents clauses))
           (newSet ∪ passResolvents clauses)

/-- All signed propositions occurring in a set of clauses. -/
def allSigned (s : Finset MazeClause) : Finset (MazePropId × Bool) :=
  s.biUnion MazeClause.props

/-- Every clause the `ask` loop can ever hold: the initial clauses plus every
non-valid clause over their signed propositions.  Used to bound the fuel. -/
def clauseUniverse (s : Finset MazeClause) : Finset MazeClause :=
  s ∪ (allSigned s).powerset.image (fun t => ⟨t, false⟩)

/-- Fuel that provably suffices for `askLoop` to reach a return statement
(the working set grows strictly inside `clauseUniverse` each pass). -/
def askFuel (s : Finset MazeClause) : Nat := (clauseUniverse s).card + 1

/-- `MazeKnowledgeBase.ask`: add the flipped query to a copy of the clause
set and run exhaustive pairwise resolution to a verdict. -/
def MazeKnowledgeBase.ask (kb : MazeKnowledgeBase) (q : MazeClause) : Bool :=
  askLoop (askFuel (insert (negQuery q) kb.clauses))
    (insert (negQuery q) kb.clauses) ∅

/-- Derivability by exhaustive pairwise resolution from a starting clause
set: the closure of the set under resolution of distinct pairs. -/
inductive Deriv (s : Finset MazeClause) : MazeClause → Prop
  | mem {c} : c ∈ s → Deriv s c
  | res {c1 c2 c} : Deriv s c1 → Deriv s c2 → c1 ≠ c2 →
      c ∈ MazeClause.resolve c1 c2 → Deriv s c

/-- The empty clause arises as a resolvent of two derivable clauses. -/
def DerivesEmpty (s : Finset MazeClause) : Prop :=
  ∃ c1 c2, Deriv s c1 ∧ Deriv s c2 ∧ c1 ≠ c2 ∧
    emptyClause ∈ MazeClause.resolve c1 c2


/-- The synthetic unit clause `MazeClause([(("P", loc), is_pit)])` of
`get_simplified_clauses`. -/
def saniClause (loc : Loc) (isPit : Bool) : MazeClause :=
  mkMazeClause [(("P", loc), isPit)]

/-- The `for clause in clauses` loop of `get_simplified_clauses`, iterating in
the given list order (Python set order is unspecified): skip unit clauses;
on the first non-unit clause whose polarity at `loc` equals the known fact,
record it for removal and `break`; otherwise union the clause's resolvent
against the synthetic unit clause into `to_add`.  Returns `(to_add, to_rem)`. -/
def simpLoop (loc : Loc) (isPit : Bool) :
    List MazeClause → Finset MazeClause → Finset MazeClause →
      Finset MazeClause × Finset MazeClause
  | [], toAdd, toRem => (toAdd, toRem)
  | c :: rest, toAdd, toRem =>
    if c.props.card = 1 then simpLoop loc isPit rest toAdd toRem
    else if c.getProp ("P", loc) = some isPit then (toAdd, insert c toRem)
    else simpLoop loc isPit rest (toAdd ∪ c.resolve (saniClause loc isPit)) toRem

/-- `MazeKnowledgeBase.get_simplified_clauses`: run the loop, then return
`(clauses | to_add) - to_rem`.  The clause set is passed as the list of its
elements in iteration order. -/
def get_simplified_clauses (clauses : List MazeClause) (loc : Loc)
    (isPit : Bool) : Finset MazeClause :=
  ((clauses.toFinset ∪ (simpLoop loc isPit clauses ∅ ∅).1) \
    (simpLoop loc isPit clauses ∅ ∅).2)

/-- A signed pit proposition `(("P", loc), polarity)` as built throughout
`maze_agent.py`. -/
def pitProp (l : Loc) (b : Bool) : MazePropId × Bool := (("P", l), b)

/-- The clauses `think` tells the knowledge base in the `tile == "1"` branch
when no adjacent pit is already known (`pitFound == False`), as a function of
the undetermined candidate neighbours `adjTiles[0..counter-1]`:
`counter == 1` asserts the lone candidate is a pit (via `add_Pit`);
`counter == 2` asserts `(x v y)` and `(!x v !y)`;
`counter == 3` asserts the three pairwise `(!_ v !_)` clauses and `(x v y v z)`;
`counter == 4` only prints a message and asserts nothing. -/
def think1Clauses (cands : List Loc) : List MazeClause :=
  match cands with
  | [a] => [mkMazeClause [pitProp a true]]
  | [a, b] =>
      [mkMazeClause [pitProp a true, pitProp b true],
       mkMazeClause [pitProp a false, pitProp b false]]
  | [a, b, c] =>
      [mkMazeClause [pitProp a false, pitProp b false],
       mkMazeClause [pitProp a false, pitProp c false],
       mkMazeClause [pitProp b false, pitProp c false],
       mkMazeClause [pitProp a true, pitProp b true, pitProp c true]]
  | _ => []

/-- All unordered pairs of a list, in order. -/
def pairsOf : List Loc → List (Loc × Loc)
  | [] => []
  | x :: rest => rest.map (fun y => (x, y)) ++ pairsOf rest

/-- Modelled from the spec: the "one clause asserting at-least-one" of the
minimal exactly-one-of-n CNF encoding — all candidates disjoined
positively. -/
def atLeastOneClause (cands : List Loc) : MazeClause :=
  ⟨(cands.map (fun l => pitProp l true)).toFinset, false⟩

/-- Modelled from the spec: the "C(n,2) clauses asserting pairwise
at-most-one" — for each unordered pair of candidates, both disjoined
negatively. -/
def pairwiseAtMostOne (cands : List Loc) : Finset MazeClause :=
  ((pairsOf cands).map
    (fun pr => (⟨{pitProp pr.1 false, pitProp pr.2 false}, false⟩ : MazeClause))).toFinset

/-- Modelled from the spec: the minimal CNF encoding of
"exactly one of these candidates is hazardous". -/
def exactlyOneCNF (cands : List Loc) : Finset MazeClause :=
  insert (atLeastOneClause cands) (pairwiseAtMostOne cands)

/-- Manhattan distance `abs(goal[0]-loc[0]) + abs(goal[1]-loc[1])` of
`get_best_tile`. -/
def manhattan (goal loc : Loc) : Nat :=
  (goal.1 - loc.1).natAbs + (goal.2 - loc.2).natAbs

/-- One iteration of the `for loc in safe` loop of `get_best_tile`: take the
location if its distance beats the current lowest cost (initially `inf`,
modelled as `⊤`). -/
def safeStep (goal : Loc) (st : Option Loc × WithTop Nat) (loc : Loc) :
    Option Loc × WithTop Nat :=
  if ((manhattan goal loc : Nat) : WithTop Nat) < st.2 then
    (some loc, ((manhattan goal loc : Nat) : WithTop Nat))
  else st

/-- One iteration of the second loop of `get_best_tile` (over the not-known-
safe candidates): compare with penalty `+ 2` but record cost with penalty
`+ 4`, exactly as the source does. -/
def riskyStep (goal : Loc) (st : Option Loc × WithTop Nat) (loc : Loc) :
    Option Loc × WithTop Nat :=
  if ((manhattan goal loc + 2 : Nat) : WithTop Nat) < st.2 then
    (some loc, ((manhattan goal loc + 4 : Nat) : WithTop Nat))
  else st

/-- `MazeAgent.get_best_tile`: run both loops (in the given list orders) from
`bestTile` unassigned and `lowestCost = inf`; `none` models the unassigned
initial placeholder (the source leaves `bestTile` bound to the type expression
`tuple[int, int]`, not a coordinate, when neither loop fires). -/
def get_best_tile (goal : Loc) (safe risky : List Loc) : Option Loc :=
  (risky.foldl (riskyStep goal) (safe.foldl (safeStep goal) (none, ⊤))).1
/-
Helper lemmas shared by the claim theorems.
-/

theorem mem_resolve {c1 c2 r : MazeClause} :
    r ∈ MazeClause.resolve c1 c2 ↔
      (resolutionProps c1 c2).card = 1 ∧
        r = ⟨(graveyard c1 c2).filter (fun pb => pb.1 ∉ resolutionProps c1 c2),
              false⟩ := by
  unfold MazeClause.resolve
  by_cases h : (resolutionProps c1 c2).card = 1 <;> simp [h]

theorem resolve_props_subset {c1 c2 r : MazeClause}
    (h : r ∈ MazeClause.resolve c1 c2) :
    r.props ⊆ c1.props ∪ c2.props ∧ r.valid = false := by
  obtain ⟨-, rfl⟩ := mem_resolve.mp h
  refine ⟨?_, rfl⟩
  intro pb hpb
  have hg : pb ∈ graveyard c1 c2 := Finset.mem_of_mem_filter pb hpb
  rcases Finset.mem_union.mp hg with h' | h'
  · exact Finset.mem_union_left _ h'
  · exact Finset.mem_union_right _ (Finset.mem_of_mem_filter pb h')

theorem mem_passResolvents {s : Finset MazeClause} {r : MazeClause} :
    r ∈ passResolvents s ↔
      ∃ c1 c2, c1 ∈ s ∧ c2 ∈ s ∧ c1 ≠ c2 ∧ r ∈ MazeClause.resolve c1 c2 := by
  unfold passResolvents
  constructor
  · intro h
    obtain ⟨cc, hcc, hr⟩ := Finset.mem_biUnion.mp h
    obtain ⟨h1, h2⟩ := Finset.mem_product.mp hcc
    by_cases he : cc.1 = cc.2
    · rw [if_pos he] at hr
      exact absurd hr (Finset.not_mem_empty r)
    · rw [if_neg he] at hr
      exact ⟨cc.1, cc.2, h1, h2, he, hr⟩
  · rintro ⟨c1, c2, h1, h2, hne, hr⟩
    refine Finset.mem_biUnion.mpr ⟨(c1, c2), Finset.mem_product.mpr ⟨h1, h2⟩, ?_⟩
    rw [if_neg hne]
    exact hr

theorem props_subset_allSigned {s : Finset MazeClause} {c : MazeClause}
    (h : c ∈ s) : c.props ⊆ allSigned s :=
  fun _pb hpb => Finset.mem_biUnion.mpr ⟨c, h, hpb⟩

theorem mem_clauseUniverse_props {s : Finset MazeClause} {c : MazeClause}
    (h : c ∈ clauseUniverse s) : c.props ⊆ allSigned s := by
  rcases Finset.mem_union.mp h with h' | h'
  · exact props_subset_allSigned h'
  · obtain ⟨t, ht, rfl⟩ := Finset.mem_image.mp h'
    exact Finset.mem_powerset.mp ht

theorem mem_clauseUniverse_of {s : Finset MazeClause}
    {t : Finset (MazePropId × Bool)} (ht : t ⊆ allSigned s) :
    (⟨t, false⟩ : MazeClause) ∈ clauseUniverse s :=
  Finset.mem_union_right _
    (Finset.mem_image.mpr ⟨t, Finset.mem_powerset.mpr ht, rfl⟩)

theorem self_subset_clauseUniverse (s : Finset MazeClause) :
    s ⊆ clauseUniverse s :=
  Finset.subset_union_left

theorem passResolvents_subset_universe {s t : Finset MazeClause}
    (h : t ⊆ clauseUniverse s) :
    passResolvents t ⊆ clauseUniverse s := by
  intro r hr
  obtain ⟨c1, c2, h1, h2, hne, hres⟩ := mem_passResolvents.mp hr
  obtain ⟨hsub, hval⟩ := resolve_props_subset hres
  have hr' : r = ⟨r.props, false⟩ := by
    cases r with
    | mk p v => simpa using hval
  rw [hr']
  apply mem_clauseUniverse_of
  refine hsub.trans (Finset.union_subset ?_ ?_)
  · exact mem_clauseUniverse_props (h h1)
  · exact mem_clauseUniverse_props (h h2)

theorem Deriv.mem_of_closed {s f : Finset MazeClause} (hs : s ⊆ f)
    (hc : passResolvents f ⊆ f) {c : MazeClause} (h : Deriv s c) : c ∈ f := by
  induction h with
  | mem hc0 => exact hs hc0
  | res h1 h2 hne hres ih1 ih2 =>
    exact hc (mem_passResolvents.mpr ⟨_, _, ih1, ih2, hne, hres⟩)

theorem askLoop_true_derives (s : Finset MazeClause) :
    ∀ (n : Nat) (cl nw : Finset MazeClause),
      (∀ c ∈ cl, Deriv s c) → (∀ c ∈ nw, Deriv s c) →
      askLoop n cl nw = true → DerivesEmpty s := by
  intro n
  induction n with
  | zero =>
    intro cl nw _ _ h
    simp [askLoop] at h
  | succ n ih =>
    intro cl nw hcl hnw h
    simp only [askLoop] at h
    by_cases he : emptyClause ∈ passResolvents cl
    · obtain ⟨c1, c2, h1, h2, hne, hres⟩ := mem_passResolvents.mp he
      exact ⟨c1, c2, hcl _ h1, hcl _ h2, hne, hres⟩
    · rw [if_neg he] at h
      by_cases hsub : nw ∪ passResolvents cl ⊆ cl
      · rw [if_pos hsub] at h
        exact absurd h (by simp)
      · rw [if_neg hsub] at h
        have hder : ∀ c ∈ nw ∪ passResolvents cl, Deriv s c := by
          intro c hc
          rcases Finset.mem_union.mp hc with h' | h'
          · exact hnw _ h'
          · obtain ⟨c1, c2, h1, h2, hne, hres⟩ := mem_passResolvents.mp h'
            exact Deriv.res (hcl _ h1) (hcl _ h2) hne hres
        refine ih _ _ ?_ hder h
        intro c hc
        rcases Finset.mem_union.mp hc with h' | h'
        · exact hcl _ h'
        · exact hder _ h'

theorem askLoop_false_not_derives (s : Finset MazeClause) :
    ∀ (n : Nat) (cl nw : Finset MazeClause),
      s ⊆ cl → cl ⊆ clauseUniverse s → nw ⊆ clauseUniverse s →
      (clauseUniverse s).card + 1 ≤ n + cl.card →
      askLoop n cl nw = false → ¬ DerivesEmpty s := by
  intro n
  induction n with
  | zero =>
    intro cl nw _ hclU _ hfuel _
    have := Finset.card_le_card hclU
    omega
  | succ n ih =>
    intro cl nw hscl hclU hnwU hfuel h
    simp only [askLoop] at h
    by_cases he : emptyClause ∈ passResolvents cl
    · rw [if_pos he] at h
      exact absurd h (by simp)
    · rw [if_neg he] at h
      by_cases hsub : nw ∪ passResolvents cl ⊆ cl
      · rintro ⟨c1, c2, h1, h2, hne, hres⟩
        have hclosed : passResolvents cl ⊆ cl :=
          fun r hr => hsub (Finset.mem_union_right _ hr)
        exact he (mem_passResolvents.mpr
          ⟨c1, c2, Deriv.mem_of_closed hscl hclosed h1,
            Deriv.mem_of_closed hscl hclosed h2, hne, hres⟩)
      · rw [if_neg hsub] at h
        have hU : nw ∪ passResolvents cl ⊆ clauseUniverse s :=
          Finset.union_subset hnwU (passResolvents_subset_universe hclU)
        have hgrow : cl.card < (cl ∪ (nw ∪ passResolvents cl)).card := by
          apply Finset.card_lt_card
          refine ⟨Finset.subset_union_left, fun hle => hsub ?_⟩
          intro x hx
          exact hle (Finset.mem_union_right _ hx)
        refine ih _ _ (hscl.trans Finset.subset_union_left)
          (Finset.union_subset hclU hU) hU (by omega) h
/-- Claim C1: for every knowledge base and query clause, `ask(query)` returns
`True` exactly when the empty clause is derivable by exhaustive pairwise
resolution from the KB's clauses together with the single clause obtained by
flipping the polarity of every proposition of the query (`negQuery`), and
returns `False` otherwise — i.e. when a full pass produces no resolvent not
already in the working set. -/
theorem ask_true_iff_derives_empty (kb : MazeKnowledgeBase) (q : MazeClause) :
    kb.ask q = true ↔ DerivesEmpty (insert (negQuery q) kb.clauses) := by
  unfold MazeKnowledgeBase.ask
  constructor
  · intro h
    exact askLoop_true_derives _ _ _ _ (fun c hc => Deriv.mem hc)
      (by simp) h
  · intro hd
    by_contra h
    have hfalse :
        askLoop (askFuel (insert (negQuery q) kb.clauses))
          (insert (negQuery q) kb.clauses) ∅ = false :=
      Bool.eq_false_iff.mpr h
    refine askLoop_false_not_derives _ _ _ _ le_rfl
      (self_subset_clauseUniverse _) (Finset.empty_subset _) ?_ hfalse hd
    unfold askFuel
    omega
/-- Claim C3 (code bug evaluation): the very example from `simplify_self`'s
docstring.  Simplifying `{(P(1,1) v !P(2,1)), (!P(1,1) v P(1,2))}` with the
known pit `(1,1)` drops only the first same-polarity clause and then `break`s,
leaving the clause `(!P(1,1) v P(1,2))` — a non-unit clause still mentioning
`(1,1)` — in the result untouched, with no resolvent added, contradicting the
claim that every non-unit clause mentioning the location is gone. -/
theorem simplify_keeps_clause_mentioning_loc :
    get_simplified_clauses
        [mkMazeClause [(("P", (1, 1)), true), (("P", (2, 1)), false)],
         mkMazeClause [(("P", (1, 1)), false), (("P", (1, 2)), true)]]
        (1, 1) true
      = {mkMazeClause [(("P", (1, 1)), false), (("P", (1, 2)), true)]} ∧
    (mkMazeClause [(("P", (1, 1)), false), (("P", (1, 2)), true)]).getProp
        ("P", (1, 1)) = some false ∧
    (mkMazeClause [(("P", (1, 1)), false), (("P", (1, 2)), true)]).size = 2 := by
  decide

/-- Claim C5 (code bug evaluation): the unit clauses `[(p, True)]` and
`[(p, False)]` compare equal under `__eq__` (which compares `frozenset(dict)`,
i.e. key sets) even though their polarity mappings differ — and their hash
inputs differ, so equal clauses do not get equal hash codes. -/
theorem eq_ignores_polarity :
    clauseEqPy (mkMazeClause [(("P", (1, 1)), true)])
        (mkMazeClause [(("P", (1, 1)), false)]) = true ∧
    (mkMazeClause [(("P", (1, 1)), true)]).props ≠
      (mkMazeClause [(("P", (1, 1)), false)]).props ∧
    clauseHashKey (mkMazeClause [(("P", (1, 1)), true)]) ≠
      clauseHashKey (mkMazeClause [(("P", (1, 1)), false)]) := by
  decide

/-- Claim C6 (code bug evaluation): a KB containing the two-proposition clause
`(P(0,0) v P(1,0))` does not ask-entail that very clause: `ask` negates the
query into the single clause `(!P(0,0) v !P(1,0))`, which shares two
complementary propositions with the original and so never resolves. -/
theorem ask_self_two_props_false :
    (MazeKnowledgeBase.mk
        {mkMazeClause [(("P", (0, 0)), true), (("P", (1, 0)), true)]}).ask
      (mkMazeClause [(("P", (0, 0)), true), (("P", (1, 0)), true)]) = false := by
  decide

/-- Claim C8 (code bug evaluation): simplification is not idempotent.  With
the known pit `(0,0)` and the clause set `{(P(0,0) v P(1,0)),
(P(0,0) v P(2,0))}` (both non-unit, both agreeing with the fact), the first
call removes only the first clause and `break`s; the second call, on the
result, removes the remaining clause — a further change. -/
theorem simplify_not_idempotent :
    get_simplified_clauses
        [mkMazeClause [(("P", (0, 0)), true), (("P", (1, 0)), true)],
         mkMazeClause [(("P", (0, 0)), true), (("P", (2, 0)), true)]]
        (0, 0) true
      = {mkMazeClause [(("P", (0, 0)), true), (("P", (2, 0)), true)]} ∧
    get_simplified_clauses
        [mkMazeClause [(("P", (0, 0)), true), (("P", (2, 0)), true)]]
        (0, 0) true
      = (∅ : Finset MazeClause) := by
  decide

/-- Claim C9 (counterexample): with goal `(0,0)`, the known-safe candidate
`(0,5)` and the not-known-safe candidate `(0,0)`, `get_best_tile` returns the
unsafe location `(0,0)` even though a known-safe candidate exists — the
second loop overrides a safe best tile whenever `distance + 2` beats it. -/
theorem best_tile_overridden_by_risky :
    get_best_tile (0, 0) [(0, 5)] [(0, 0)] = some (0, 0) ∧
    ((0, 0) : Loc) ∉ ([(0, 5)] : List Loc) := by
  decide

/-- Claim C4 (counterexample): a clause built from
`[(p,True), (p,False), (q,True)]` is marked valid but still carries the
proposition `q` — the constructor drops only the double-polarity proposition,
not the whole proposition set, so the claim's "carries zero propositions" is
false. -/
theorem mk_valid_keeps_other_props :
    (mkMazeClause [(("P", (1, 1)), true), (("P", (1, 1)), false),
        (("Q", (1, 1)), true)]).valid = true ∧
    (mkMazeClause [(("P", (1, 1)), true), (("P", (1, 1)), false),
        (("Q", (1, 1)), true)]).props = {(("Q", (1, 1)), true)} := by
  decide

/-- Claim C7 (counterexample): for four distinct undetermined candidates the
`tile == "1"` branch asserts nothing at all (it only prints), while the
minimal exactly-one-of-4 encoding is the non-empty set of one at-least-one
clause plus six pairwise at-most-one clauses. -/
theorem think1_four_candidates_nothing :
    think1Clauses [(0, 0), (0, 1), (1, 0), (1, 1)] = [] ∧
    (exactlyOneCNF [(0, 0), (0, 1), (1, 0), (1, 1)]).card = 7 ∧
    (think1Clauses [(0, 0), (0, 1), (1, 0), (1, 1)]).toFinset ≠
      exactlyOneCNF [(0, 0), (0, 1), (1, 0), (1, 1)] := by
  decide
theorem graveyard_filter_eq (c1 c2 : MazeClause) :
    (graveyard c1 c2).filter (fun pb => pb.1 ∉ resolutionProps c1 c2) =
      (c1.props ∪ c2.props).filter
        (fun pb => pb.1 ∉ resolutionProps c1 c2) := by
  ext pb
  simp only [Finset.mem_filter, graveyard, Finset.mem_union]
  constructor
  · rintro ⟨h, hnp⟩
    refine ⟨?_, hnp⟩
    rcases h with h1 | h2
    · exact Or.inl h1
    · exact Or.inr h2.1
  · rintro ⟨h, hnp⟩
    refine ⟨?_, hnp⟩
    rcases h with h1 | h2
    · exact Or.inl h1
    · by_cases hc1 : pb ∈ c1.props
      · exact Or.inl hc1
      · by_cases hk : pb.1 ∈ clauseKeys c1.props
        · exfalso
          apply hnp
          obtain ⟨qb, hqb, hfst⟩ := Finset.mem_image.mp hk
          refine Finset.mem_image.mpr
            ⟨qb, Finset.mem_filter.mpr ⟨hqb, ?_⟩, hfst⟩
          have hb : qb.2 ≠ pb.2 := by
            intro hb
            apply hc1
            have hqp : qb = pb := Prod.ext hfst hb
            rwa [hqp] at hqb
          have hflip : (!qb.2) = pb.2 := by
            cases qb2 : qb.2 <;> cases pb2 : pb.2
            · exact absurd (qb2.trans pb2.symm) hb
            · rfl
            · rfl
            · exact absurd (qb2.trans pb2.symm) hb
          rw [hfst, hflip]
          simpa using h2
        · exact Or.inr ⟨h2, hk⟩

theorem mk_single (x : MazePropId × Bool) : mkMazeClause [x] = ⟨{x}, false⟩ := by
  simp [mkMazeClause, clauseStep, List.find?, List.filter]

/-- Claim C2: if two clauses share exactly one complementary proposition,
`resolve` returns the singleton of the clause whose propositions are the
union of all their other signed propositions; with zero or two-or-more
complementary propositions it returns the empty set; and resolving the unit
clauses `[(p,True)]` and `[(p,False)]` yields exactly the empty clause. -/
theorem resolve_characterized (c1 c2 : MazeClause) (p : MazePropId) :
    ((resolutionProps c1 c2).card = 1 →
      MazeClause.resolve c1 c2 =
        {⟨(c1.props ∪ c2.props).filter
            (fun pb => pb.1 ∉ resolutionProps c1 c2), false⟩}) ∧
    ((resolutionProps c1 c2).card ≠ 1 → MazeClause.resolve c1 c2 = ∅) ∧
    MazeClause.resolve (mkMazeClause [(p, true)]) (mkMazeClause [(p, false)])
      = {emptyClause} := by
  refine ⟨?_, ?_, ?_⟩
  · intro h
    unfold MazeClause.resolve
    rw [if_pos h, graveyard_filter_eq]
  · intro h
    unfold MazeClause.resolve
    rw [if_neg h]
  · rw [mk_single, mk_single]
    unfold MazeClause.resolve
    have h1 : resolutionProps ⟨{(p, true)}, false⟩ ⟨{(p, false)}, false⟩
        = {p} := by
      unfold resolutionProps
      simp [Finset.filter_singleton]
    rw [h1, if_pos (Finset.card_singleton p)]
    have h2 : emptyClause = ⟨∅, false⟩ := rfl
    rw [h2]
    congr 1
    rw [MazeClause.mk.injEq]
    refine ⟨?_, rfl⟩
    unfold graveyard clauseKeys
    ext pb
    simp [Finset.filter_singleton]

/-- Witness for C2 at the concrete input of `test_mazeclause_resolution3`. -/
theorem resolve_characterized_witness :
    (resolutionProps
        (mkMazeClause [(("X", (1, 1)), true), (("Y", (1, 1)), true)])
        (mkMazeClause [(("X", (1, 1)), false), (("Y", (2, 2)), true)])).card
      = 1 ∧
    MazeClause.resolve
        (mkMazeClause [(("X", (1, 1)), true), (("Y", (1, 1)), true)])
        (mkMazeClause [(("X", (1, 1)), false), (("Y", (2, 2)), true)])
      = {⟨((mkMazeClause [(("X", (1, 1)), true), (("Y", (1, 1)), true)]).props ∪
            (mkMazeClause [(("X", (1, 1)), false), (("Y", (2, 2)), true)]).props).filter
            (fun pb => pb.1 ∉ resolutionProps
              (mkMazeClause [(("X", (1, 1)), true), (("Y", (1, 1)), true)])
              (mkMazeClause [(("X", (1, 1)), false), (("Y", (2, 2)), true)])),
          false⟩} :=
  ⟨by decide,
    (resolve_characterized
      (mkMazeClause [(("X", (1, 1)), true), (("Y", (1, 1)), true)])
      (mkMazeClause [(("X", (1, 1)), false), (("Y", (2, 2)), true)])
      ("X", (1, 1))).1 (by decide)⟩
theorem clauseStep_vprops (st : CState) (x : MazePropId × Bool) :
    st.2.1 ⊆ (clauseStep st x).2.1 := by
  unfold clauseStep
  split
  · split
    · exact subset_rfl
    · exact Finset.subset_insert _ _
  · exact subset_rfl

theorem clauseFold_vprops_mono (l : List (MazePropId × Bool)) :
    ∀ st : CState, st.2.1 ⊆ (l.foldl clauseStep st).2.1 := by
  induction l with
  | nil => intro st; exact subset_rfl
  | cons x rest ih =>
    intro st
    exact (clauseStep_vprops st x).trans (ih (clauseStep st x))

theorem clauseStep_flagInv (st : CState) (x : MazePropId × Bool)
    (h : st.2.2 = false → st.2.1 = ∅) :
    (clauseStep st x).2.2 = false → (clauseStep st x).2.1 = ∅ := by
  unfold clauseStep
  split
  · split
    · exact h
    · intro hf; simp at hf
  · exact h

theorem clauseFold_flagInv (l : List (MazePropId × Bool)) :
    ∀ st : CState, (st.2.2 = false → st.2.1 = ∅) →
      ((l.foldl clauseStep st).2.2 = false → (l.foldl clauseStep st).2.1 = ∅) := by
  induction l with
  | nil => intro st h; exact h
  | cons x rest ih =>
    intro st h
    exact ih (clauseStep st x) (clauseStep_flagInv st x h)

theorem find?_eq_some_append {α : Type} (pred : α → Bool) {l1 : List α}
    (l2 : List α) {e : α} (h : l1.find? pred = some e) :
    (l1 ++ l2).find? pred = some e := by
  induction l1 with
  | nil => simp [List.find?] at h
  | cons a t ih =>
    rw [List.cons_append]
    by_cases hp : pred a = true
    · rw [List.find?_cons_of_pos _ hp] at h ⊢
      exact h
    · rw [List.find?_cons_of_neg _ hp] at h ⊢
      exact ih h

theorem find?_none_append {α : Type} (pred : α → Bool) {l1 : List α}
    (l2 : List α) (h : l1.find? pred = none) :
    (l1 ++ l2).find? pred = l2.find? pred := by
  induction l1 with
  | nil => simp
  | cons a t ih =>
    by_cases hp : pred a = true
    · rw [List.find?_cons_of_pos _ hp] at h
      exact absurd h (by simp)
    · rw [List.find?_cons_of_neg _ hp] at h
      rw [List.cons_append, List.find?_cons_of_neg _ hp]
      exact ih h

theorem clauseStep_find_stable (st : CState) (x : MazePropId × Bool)
    {p : MazePropId} {e : MazePropId × Bool}
    (h : st.1.find? (fun q => decide (q.1 = p)) = some e) :
    (clauseStep st x).1.find? (fun q => decide (q.1 = p)) = some e := by
  unfold clauseStep
  split
  · split
    · exact h
    · exact h
  · exact find?_eq_some_append _ _ h

theorem clauseStep_of_found_same {st : CState} {p : MazePropId} {b : Bool}
    {e : MazePropId × Bool}
    (hfind : st.1.find? (fun q => decide (q.1 = p)) = some e)
    (heq : e.2 = b) : clauseStep st (p, b) = st := by
  unfold clauseStep
  rw [show ((p, b).1) = p from rfl, hfind]
  simp [heq]

theorem clauseStep_of_found_diff {st : CState} {p : MazePropId} {b : Bool}
    {e : MazePropId × Bool}
    (hfind : st.1.find? (fun q => decide (q.1 = p)) = some e)
    (hne : e.2 ≠ b) : clauseStep st (p, b) = (st.1, insert p st.2.1, true) := by
  unfold clauseStep
  rw [show ((p, b).1) = p from rfl, hfind]
  simp [hne]

theorem clauseStep_of_not_found {st : CState} {p : MazePropId} {b : Bool}
    (hfind : st.1.find? (fun q => decide (q.1 = p)) = none) :
    clauseStep st (p, b) = (st.1 ++ [(p, b)], st.2.1, st.2.2) := by
  unfold clauseStep
  rw [show ((p, b).1) = p from rfl, hfind]
theorem clauseFold_conflict (l : List (MazePropId × Bool)) :
    ∀ (st : CState) (p : MazePropId) (b : Bool),
      (((p, b) ∈ l ∧ (p, !b) ∈ l) ∨
        (∃ e, st.1.find? (fun q => decide (q.1 = p)) = some e ∧ e.2 = b ∧
          (p, !b) ∈ l) ∨
        p ∈ st.2.1) →
      p ∈ (l.foldl clauseStep st).2.1 := by
  induction l with
  | nil =>
    intro st p b h
    rcases h with ⟨h1, _⟩ | ⟨e, _, _, h3⟩ | h3
    · exact absurd h1 (List.not_mem_nil _)
    · exact absurd h3 (List.not_mem_nil _)
    · exact h3
  | cons x rest ih =>
    intro st p b h
    rcases h with ⟨h1, h2⟩ | ⟨e, hfind, heb, hmem⟩ | hvp
    · -- both polarities occur in x :: rest
      rcases List.mem_cons.mp h1 with hx1 | hr1 <;>
        rcases List.mem_cons.mp h2 with hx2 | hr2
      · -- x is both (p, b) and (p, !b): impossible
        exfalso
        have : b = !b := congrArg Prod.snd (hx1.trans hx2.symm)
        cases b <;> simp at this
      · -- x = (p, b), (p, !b) ∈ rest
        rw [← hx1, List.foldl_cons]
        cases hfind : st.1.find? (fun q => decide (q.1 = p)) with
        | some e =>
          by_cases heb : e.2 = b
          · rw [clauseStep_of_found_same hfind heb]
            exact ih st p b (Or.inr (Or.inl ⟨e, hfind, heb, hr2⟩))
          · rw [clauseStep_of_found_diff hfind heb]
            exact clauseFold_vprops_mono rest _ (Finset.mem_insert_self p _)
        | none =>
          rw [clauseStep_of_not_found hfind]
          refine ih _ p b (Or.inr (Or.inl ⟨(p, b), ?_, rfl, hr2⟩))
          rw [find?_none_append _ _ hfind]
          simp [List.find?]
      · -- x = (p, !b), (p, b) ∈ rest
        rw [← hx2, List.foldl_cons]
        cases hfind : st.1.find? (fun q => decide (q.1 = p)) with
        | some e =>
          by_cases heb : e.2 = !b
          · rw [clauseStep_of_found_same hfind heb]
            refine ih st p (!b) (Or.inr (Or.inl ⟨e, hfind, heb, ?_⟩))
            rwa [Bool.not_not]
          · rw [clauseStep_of_found_diff hfind heb]
            exact clauseFold_vprops_mono rest _ (Finset.mem_insert_self p _)
        | none =>
          rw [clauseStep_of_not_found hfind]
          refine ih _ p (!b) (Or.inr (Or.inl ⟨(p, !b), ?_, rfl, ?_⟩))
          · rw [find?_none_append _ _ hfind]
            simp [List.find?]
          · rwa [Bool.not_not]
      · -- both in rest
        exact ih _ p b (Or.inl ⟨hr1, hr2⟩)
    · -- found in the dict with polarity b, and (p, !b) occurs in x :: rest
      rcases List.mem_cons.mp hmem with hx | hr
      · rw [← hx, List.foldl_cons]
        rw [clauseStep_of_found_diff hfind
          (by rw [heb]; cases b <;> simp)]
        exact clauseFold_vprops_mono rest _ (Finset.mem_insert_self p _)
      · exact ih _ p b
          (Or.inr (Or.inl ⟨e, clauseStep_find_stable st x hfind, heb, hr⟩))
    · -- already in validProps
      exact ih _ p b (Or.inr (Or.inr (clauseStep_vprops st x hvp)))
/-- Claim C4 (amended): if some proposition `p` occurs with both polarities in
the constructor's input, the clause is marked valid and `p` itself is dropped
from the proposition mapping — but only `p`; propositions occurring with a
single polarity are retained (see `mk_valid_keeps_other_props`).  In the
particular case of the input `[(p,true), (p,false)]`, the proposition set is
empty. -/
theorem mk_both_polarities (l : List (MazePropId × Bool)) (p : MazePropId)
    (h1 : (p, true) ∈ l) (h2 : (p, false) ∈ l) :
    (mkMazeClause l).valid = true ∧
      (∀ b, (p, b) ∉ (mkMazeClause l).props) ∧
      mkMazeClause [(p, true), (p, false)] = ⟨∅, true⟩ := by
  have hvp : p ∈ (l.foldl clauseStep ([], ∅, false)).2.1 :=
    clauseFold_conflict l ([], ∅, false) p true (Or.inl ⟨h1, h2⟩)
  refine ⟨?_, ?_, ?_⟩
  · show (l.foldl clauseStep ([], ∅, false)).2.2 = true
    rcases Bool.eq_false_or_eq_true ((l.foldl clauseStep ([], ∅, false)).2.2)
      with ht | hf
    · exact ht
    · have hempty := clauseFold_flagInv l ([], ∅, false) (fun _ => rfl) hf
      rw [hempty] at hvp
      exact absurd hvp (Finset.not_mem_empty p)
  · intro b hb
    have hb' := List.mem_toFinset.mp hb
    have hdec := (List.mem_filter.mp hb').2
    rw [decide_eq_true_eq] at hdec
    exact hdec hvp
  · have hstep1 : clauseStep ([], ∅, false) (p, true)
        = ([(p, true)], ∅, false) :=
      clauseStep_of_not_found (by simp [List.find?])
    have hstep2 : clauseStep ([(p, true)], (∅ : Finset MazePropId), false)
        (p, false) = ([(p, true)], insert p ∅, true) :=
      clauseStep_of_found_diff (e := (p, true)) (by simp [List.find?])
        (by simp)
    unfold mkMazeClause
    rw [List.foldl_cons, List.foldl_cons, List.foldl_nil, hstep1, hstep2]
    simp

/-- Witness for C4 at a concrete input with an extra single-polarity
proposition. -/
theorem mk_both_polarities_witness :
    ((("P", (1, 1)) : MazePropId), true) ∈
        [((("P", (1, 1)) : MazePropId), true), (("P", (1, 1)), false),
          (("Q", (1, 1)), true)] ∧
    ((("P", (1, 1)) : MazePropId), false) ∈
        [((("P", (1, 1)) : MazePropId), true), (("P", (1, 1)), false),
          (("Q", (1, 1)), true)] ∧
    ((mkMazeClause [(("P", (1, 1)), true), (("P", (1, 1)), false),
        (("Q", (1, 1)), true)]).valid = true ∧
      (∀ b, (("P", (1, 1)), b) ∉ (mkMazeClause [(("P", (1, 1)), true),
        (("P", (1, 1)), false), (("Q", (1, 1)), true)]).props) ∧
      mkMazeClause [((("P", (1, 1)) : MazePropId), true), (("P", (1, 1)), false)]
        = ⟨∅, true⟩) :=
  ⟨by decide, by decide,
    mk_both_polarities _ ("P", (1, 1)) (by decide) (by decide)⟩
theorem safeFold_spec (goal : Loc) (l : List Loc) :
    ∀ st : Option Loc × WithTop Nat,
      ((l.foldl (safeStep goal) st = st) ∨
        ∃ s ∈ l, l.foldl (safeStep goal) st =
          (some s, ((manhattan goal s : Nat) : WithTop Nat))) ∧
      (l.foldl (safeStep goal) st).2 ≤ st.2 ∧
      ∀ s ∈ l, (l.foldl (safeStep goal) st).2 ≤
        ((manhattan goal s : Nat) : WithTop Nat) := by
  induction l with
  | nil =>
    intro st
    exact ⟨Or.inl rfl, le_rfl, by simp⟩
  | cons x rest ih =>
    intro st
    rw [List.foldl_cons]
    obtain ⟨hopt, hle, hall⟩ := ih (safeStep goal st x)
    have hstle : (safeStep goal st x).2 ≤ st.2 := by
      unfold safeStep
      split
      · next h => exact le_of_lt h
      · exact le_rfl
    have hstx : (safeStep goal st x).2 ≤
        ((manhattan goal x : Nat) : WithTop Nat) := by
      unfold safeStep
      split
      · exact le_rfl
      · next h => exact le_of_not_lt h
    refine ⟨?_, hle.trans hstle, ?_⟩
    · rcases hopt with heq | ⟨s, hs, heq⟩
      · rw [heq]
        unfold safeStep
        split
        · exact Or.inr ⟨x, List.mem_cons_self x rest, rfl⟩
        · exact Or.inl rfl
      · exact Or.inr ⟨s, List.mem_cons_of_mem x hs, heq⟩
    · intro s hs
      rcases List.mem_cons.mp hs with rfl | hs'
      · exact hle.trans hstx
      · exact hall s hs'

theorem riskyFold_mem (goal : Loc) (l : List Loc) :
    ∀ st : Option Loc × WithTop Nat,
      (l.foldl (riskyStep goal) st).1 = st.1 ∨
        ∃ u ∈ l, (l.foldl (riskyStep goal) st).1 = some u := by
  induction l with
  | nil => intro st; exact Or.inl rfl
  | cons x rest ih =>
    intro st
    rw [List.foldl_cons]
    rcases ih (riskyStep goal st x) with h | ⟨u, hu, h⟩
    · rw [h]
      unfold riskyStep
      split
      · exact Or.inr ⟨x, List.mem_cons_self x rest, rfl⟩
      · exact Or.inl rfl
    · exact Or.inr ⟨u, List.mem_cons_of_mem x hu, h⟩

theorem riskyFold_noop (goal : Loc) (l : List Loc) :
    ∀ st : Option Loc × WithTop Nat,
      (∀ u ∈ l, ¬(((manhattan goal u + 2 : Nat) : WithTop Nat) < st.2)) →
      l.foldl (riskyStep goal) st = st := by
  induction l with
  | nil => intro st _; rfl
  | cons x rest ih =>
    intro st h
    have hx := h x (List.mem_cons_self x rest)
    have hstep : riskyStep goal st x = st := by
      unfold riskyStep
      rw [if_neg hx]
    rw [List.foldl_cons, hstep]
    exact ih st (fun u hu => h u (List.mem_cons_of_mem x hu))

theorem riskyFold_from_top (goal : Loc) (l : List Loc) (hne : l ≠ [])
    (b : Option Loc) :
    ∃ u ∈ l, (l.foldl (riskyStep goal) (b, ⊤)).1 = some u := by
  cases l with
  | nil => exact absurd rfl hne
  | cons x rest =>
    rw [List.foldl_cons]
    have hstep : riskyStep goal (b, ⊤) x =
        (some x, ((manhattan goal x + 4 : Nat) : WithTop Nat)) := by
      unfold riskyStep
      exact if_pos (WithTop.coe_lt_top _)
    rw [hstep]
    rcases riskyFold_mem goal rest
        (some x, ((manhattan goal x + 4 : Nat) : WithTop Nat)) with h | ⟨u, hu, h⟩
    · exact ⟨x, List.mem_cons_self x rest, h⟩
    · exact ⟨u, List.mem_cons_of_mem x hu, h⟩

/-- Claim C9 (amended): the selected target is a known-safe location of
minimal Manhattan distance only under the extra condition that no unsafe
candidate beats it by the `+ 2` comparison margin — i.e. every unsafe
candidate `u` has some safe candidate `s` with
`manhattan s ≤ manhattan u + 2`.  Without that condition an unsafe location
can be returned even when known-safe candidates exist
(`best_tile_overridden_by_risky`). -/
theorem best_tile_safe_min (goal : Loc) (safe risky : List Loc)
    (hne : safe ≠ [])
    (h : ∀ u ∈ risky, ∃ s ∈ safe,
      manhattan goal s ≤ manhattan goal u + 2) :
    ∃ s ∈ safe, get_best_tile goal safe risky = some s ∧
      ∀ t ∈ safe, manhattan goal s ≤ manhattan goal t := by
  obtain ⟨hopt, -, hall⟩ := safeFold_spec goal safe (none, ⊤)
  rcases hopt with heq | ⟨s, hs, heq⟩
  · exfalso
    cases safe with
    | nil => exact hne rfl
    | cons x rest =>
      have hx := hall x (List.mem_cons_self x rest)
      rw [heq] at hx
      exact absurd hx (by simp)
  · have hmin : ∀ t ∈ safe, manhattan goal s ≤ manhattan goal t := by
      intro t ht
      have hx := hall t ht
      rw [heq] at hx
      exact WithTop.coe_le_coe.mp hx
    refine ⟨s, hs, ?_, hmin⟩
    unfold get_best_tile
    rw [heq, riskyFold_noop goal risky _ ?_]
    intro u hu
    obtain ⟨t, ht, hle'⟩ := h u hu
    exact not_lt.mpr (WithTop.coe_le_coe.mpr ((hmin t ht).trans hle'))

/-- Witness for C9 at a concrete input. -/
theorem best_tile_safe_min_witness :
    (([(0, 1), (0, 3)] : List Loc) ≠ []) ∧
    (∀ u ∈ ([(9, 9)] : List Loc), ∃ s ∈ ([(0, 1), (0, 3)] : List Loc),
      manhattan (0, 0) s ≤ manhattan (0, 0) u + 2) ∧
    (∃ s ∈ ([(0, 1), (0, 3)] : List Loc),
      get_best_tile (0, 0) [(0, 1), (0, 3)] [(9, 9)] = some s ∧
        ∀ t ∈ ([(0, 1), (0, 3)] : List Loc),
          manhattan (0, 0) s ≤ manhattan (0, 0) t) :=
  ⟨by decide, by decide,
    best_tile_safe_min (0, 0) [(0, 1), (0, 3)] [(9, 9)] (by decide) (by decide)⟩

/-- Claim C10: with both candidate sets empty, `get_best_tile` returns the
unassigned placeholder (`none` in this embedding — the source leaves
`bestTile` bound to the type expression `tuple[int, int]`, not a grid
coordinate, so `think()` can return a non-location); whenever the union of
the two sets is non-empty, the returned value is a member of that union. -/
theorem best_tile_membership (goal : Loc) (safe risky : List Loc) :
    get_best_tile goal [] [] = none ∧
      (safe ++ risky ≠ [] → ∃ l0 ∈ safe ++ risky,
        get_best_tile goal safe risky = some l0) := by
  refine ⟨rfl, ?_⟩
  intro hne
  unfold get_best_tile
  cases hsafe : safe with
  | nil =>
    have hrne : risky ≠ [] := by
      rw [hsafe] at hne
      simpa using hne
    rw [List.foldl_nil]
    obtain ⟨u, hu, hres⟩ := riskyFold_from_top goal risky hrne none
    exact ⟨u, List.mem_append_right _ hu, hres⟩
  | cons x rest =>
    obtain ⟨hopt, -, hall⟩ := safeFold_spec goal (x :: rest) (none, ⊤)
    rcases hopt with heq | ⟨s, hs, heq⟩
    · exfalso
      have hx := hall x (List.mem_cons_self x rest)
      rw [heq] at hx
      exact absurd hx (by simp)
    · rw [heq]
      rcases riskyFold_mem goal risky
          (some s, ((manhattan goal s : Nat) : WithTop Nat)) with hres | ⟨u, hu, hres⟩
      · exact ⟨s, List.mem_append_left _ hs, hres⟩
      · exact ⟨u, List.mem_append_right _ hu, hres⟩

/-- Witness for C10 at a concrete input. -/
theorem best_tile_membership_witness :
    (([(1, 2)] : List Loc) ++ [] ≠ []) ∧
    (get_best_tile (0, 0) [] [] = none ∧
      ∃ l0 ∈ ([(1, 2)] : List Loc) ++ [],
        get_best_tile (0, 0) [(1, 2)] [] = some l0) :=
  ⟨by decide,
    (best_tile_membership (0, 0) [(1, 2)] []).1,
    (best_tile_membership (0, 0) [(1, 2)] []).2 (by decide)⟩
theorem clauseStep_not_found_pb {st : CState} {pb : MazePropId × Bool}
    (hfind : st.1.find? (fun q => decide (q.1 = pb.1)) = none) :
    clauseStep st pb = (st.1 ++ [pb], st.2.1, st.2.2) := by
  unfold clauseStep
  rw [hfind]

theorem mk_two {x y : MazePropId × Bool} (h : x.1 ≠ y.1) :
    mkMazeClause [x, y] = ⟨{x, y}, false⟩ := by
  have h1 : clauseStep ([], ∅, false) x = ([x], ∅, false) :=
    clauseStep_not_found_pb (by simp [List.find?])
  have h2 : clauseStep ([x], (∅ : Finset MazePropId), false) y
      = ([x, y], ∅, false) :=
    clauseStep_not_found_pb (by simp [List.find?, h])
  unfold mkMazeClause
  rw [List.foldl_cons, List.foldl_cons, List.foldl_nil, h1, h2]
  simp

theorem mk_three {x y z : MazePropId × Bool} (hxy : x.1 ≠ y.1)
    (hxz : x.1 ≠ z.1) (hyz : y.1 ≠ z.1) :
    mkMazeClause [x, y, z] = ⟨{x, y, z}, false⟩ := by
  have h1 : clauseStep ([], ∅, false) x = ([x], ∅, false) :=
    clauseStep_not_found_pb (by simp [List.find?])
  have h2 : clauseStep ([x], (∅ : Finset MazePropId), false) y
      = ([x, y], ∅, false) :=
    clauseStep_not_found_pb (by simp [List.find?, hxy])
  have h3 : clauseStep ([x, y], (∅ : Finset MazePropId), false) z
      = ([x, y, z], ∅, false) :=
    clauseStep_not_found_pb (by simp [List.find?, hxz, hyz])
  unfold mkMazeClause
  rw [List.foldl_cons, List.foldl_cons, List.foldl_cons, List.foldl_nil,
    h1, h2, h3]
  simp

theorem pitProp_fst_ne {a b : Loc} (h : a ≠ b) (s t : Bool) :
    (pitProp a s).1 ≠ (pitProp b t).1 := by
  intro hh
  exact h (congrArg Prod.snd hh)

/-- Claim C7 (amended): the exactly-one deduction for a warning of 1 over `n`
undetermined candidates asserts exactly the minimal exactly-one-of-n CNF
encoding (one at-least-one clause plus `C(n,2)` pairwise at-most-one clauses)
for `n = 2` and `n = 3` only; for `n = 4` the branch asserts nothing at all
(see `think1_four_candidates_nothing`). -/
theorem think1_exactly_one (a b c : Loc) (hab : a ≠ b) (hac : a ≠ c)
    (hbc : b ≠ c) :
    (think1Clauses [a, b]).toFinset = exactlyOneCNF [a, b] ∧
    (think1Clauses [a, b, c]).toFinset = exactlyOneCNF [a, b, c] ∧
    ∀ d1 d2 d3 d4 : Loc, think1Clauses [d1, d2, d3, d4] = [] := by
  refine ⟨?_, ?_, fun _ _ _ _ => rfl⟩
  · show [mkMazeClause [pitProp a true, pitProp b true],
        mkMazeClause [pitProp a false, pitProp b false]].toFinset
      = exactlyOneCNF [a, b]
    rw [mk_two (pitProp_fst_ne hab true true),
      mk_two (pitProp_fst_ne hab false false)]
    ext cl
    simp [exactlyOneCNF, atLeastOneClause, pairwiseAtMostOne, pairsOf]
  · show [mkMazeClause [pitProp a false, pitProp b false],
        mkMazeClause [pitProp a false, pitProp c false],
        mkMazeClause [pitProp b false, pitProp c false],
        mkMazeClause [pitProp a true, pitProp b true, pitProp c true]].toFinset
      = exactlyOneCNF [a, b, c]
    rw [mk_two (pitProp_fst_ne hab false false),
      mk_two (pitProp_fst_ne hac false false),
      mk_two (pitProp_fst_ne hbc false false),
      mk_three (pitProp_fst_ne hab true true) (pitProp_fst_ne hac true true)
        (pitProp_fst_ne hbc true true)]
    ext cl
    simp [exactlyOneCNF, atLeastOneClause, pairwiseAtMostOne, pairsOf]
    tauto

/-- Witness for C7 at concrete distinct candidates. -/
theorem think1_exactly_one_witness :
    (((0, 0) : Loc) ≠ (0, 1) ∧ ((0, 0) : Loc) ≠ (1, 0) ∧
      ((0, 1) : Loc) ≠ (1, 0)) ∧
    ((think1Clauses [(0, 0), (0, 1)]).toFinset = exactlyOneCNF [(0, 0), (0, 1)] ∧
      (think1Clauses [(0, 0), (0, 1), (1, 0)]).toFinset
        = exactlyOneCNF [(0, 0), (0, 1), (1, 0)] ∧
      ∀ d1 d2 d3 d4 : Loc, think1Clauses [d1, d2, d3, d4] = []) :=
  ⟨⟨by decide, by decide, by decide⟩,
    think1_exactly_one (0, 0) (0, 1) (1, 0) (by decide) (by decide) (by decide)⟩
